import Mathlib

/-!
Verification of the natural-language specification of the muLFC
incommensurate dipolar-field summation routine (src/src/fastincommsum.c,
function FastIncommSum) against a shallow embedding of that routine.

The embedding is parametric in a linearly ordered field K standing for the
C double type, and in a record of external math-library functions
(cos, sin, sqrt, the M_PI constant and the contact-rank power function),
which the specification places out of scope ("external collaborators,
specified only at their interface").  All definitions are transcribed from
the C source; definitions that model repository code that is not present
under src/ (pile.c/pile.h, mat3.h's matrix inverse, config.h) carry a
doc comment starting with "Modelled from the spec:".
-/

namespace MuLFC

/-- 3-component vector of field elements (the struct vec3 of the external
vector library, spec section 2). -/
@[ext] structure Vec3 (K : Type) where
  x : K
  y : K
  z : K
  deriving DecidableEq, Repr

/-- 3x3 matrix given by its three rows (the struct mat3 of the external
vector library); rows are the lattice vectors. -/
@[ext] structure Mat3 (K : Type) where
  a : Vec3 K
  b : Vec3 K
  c : Vec3 K
  deriving DecidableEq, Repr

variable {K : Type} [LinearOrderedField K]

/-- vec3_zero of the external vector library. -/
def vec3_zero : Vec3 K := ⟨0, 0, 0⟩

/-- vec3_add of the external vector library. -/
def vec3_add (p q : Vec3 K) : Vec3 K := ⟨p.x + q.x, p.y + q.y, p.z + q.z⟩

/-- vec3_sub of the external vector library. -/
def vec3_sub (p q : Vec3 K) : Vec3 K := ⟨p.x - q.x, p.y - q.y, p.z - q.z⟩

/-- vec3_muls (scalar times vector) of the external vector library. -/
def vec3_muls (s : K) (p : Vec3 K) : Vec3 K := ⟨s * p.x, s * p.y, s * p.z⟩

/-- vec3_dot of the external vector library. -/
def vec3_dot (p q : Vec3 K) : K := p.x * q.x + p.y * q.y + p.z * q.z

/-- vec3_norm of the external vector library: sqrt of the dot square.
The square root itself is an external libm function, passed in explicitly. -/
def vec3_norm (sqrt : K → K) (p : Vec3 K) : K := sqrt (vec3_dot p p)

/-- mat3_vmul of the external vector library: row vector times matrix,
i.e. the linear combination of the rows with the vector's components
(this is the convention under which fractional coordinates times the
lattice-row matrix give cartesian coordinates). -/
def mat3_vmul (v : Vec3 K) (m : Mat3 K) : Vec3 K :=
  vec3_add (vec3_add (vec3_muls v.x m.a) (vec3_muls v.y m.b)) (vec3_muls v.z m.c)

/-- mat3_diag of the external vector library. -/
def mat3_diag (dx dy dz : K) : Mat3 K :=
  ⟨⟨dx, 0, 0⟩, ⟨0, dy, 0⟩, ⟨0, 0, dz⟩⟩

/-- mat3_mul of the external vector library: each row of the product is the
corresponding row of the first factor multiplied into the second factor. -/
def mat3_mul (m n : Mat3 K) : Mat3 K :=
  ⟨mat3_vmul m.a n, mat3_vmul m.b n, mat3_vmul m.c n⟩

/-- Determinant of a 3x3 matrix of rows. -/
def mat3_det (m : Mat3 K) : K :=
  m.a.x * (m.b.y * m.c.z - m.b.z * m.c.y)
    - m.a.y * (m.b.x * m.c.z - m.b.z * m.c.x)
    + m.a.z * (m.b.x * m.c.y - m.b.y * m.c.x)

/-- Modelled from the spec: mat3.h is not under src/; the external library's
3x3 matrix inverse, written with the classical adjugate formula. -/
def mat3_inv (m : Mat3 K) : Mat3 K :=
  let d := mat3_det m
  ⟨⟨(m.b.y * m.c.z - m.b.z * m.c.y) / d,
    (m.a.z * m.c.y - m.a.y * m.c.z) / d,
    (m.a.y * m.b.z - m.a.z * m.b.y) / d⟩,
   ⟨(m.b.z * m.c.x - m.b.x * m.c.z) / d,
    (m.a.x * m.c.z - m.a.z * m.c.x) / d,
    (m.a.z * m.b.x - m.a.x * m.b.z) / d⟩,
   ⟨(m.b.x * m.c.y - m.b.y * m.c.x) / d,
    (m.a.y * m.c.x - m.a.x * m.c.y) / d,
    (m.a.x * m.b.y - m.a.y * m.b.x) / d⟩⟩

instance : Add (Vec3 K) := ⟨vec3_add⟩

instance : Zero (Vec3 K) := ⟨vec3_zero⟩

theorem vec3_add_eq_add (p q : Vec3 K) : vec3_add p q = p + q := rfl

theorem vec3_zero_eq_zero : (vec3_zero : Vec3 K) = 0 := rfl

instance : AddCommMonoid (Vec3 K) where
  add_assoc p q r := by
    ext <;> simp [← vec3_add_eq_add, vec3_add] <;> ring
  zero_add p := by
    ext <;> simp [← vec3_add_eq_add, ← vec3_zero_eq_zero, vec3_add, vec3_zero]
  add_zero p := by
    ext <;> simp [← vec3_add_eq_add, ← vec3_zero_eq_zero, vec3_add, vec3_zero]
  add_comm p q := by
    ext <;> simp [← vec3_add_eq_add, vec3_add] <;> ring
  nsmul := nsmulRec

theorem vec3_muls_zero (s : K) : vec3_muls s (vec3_zero : Vec3 K) = vec3_zero := by
  simp [vec3_muls, vec3_zero]

theorem vec3_sub_zero_zero : vec3_sub (vec3_zero : Vec3 K) vec3_zero = vec3_zero := by
  simp [vec3_sub, vec3_zero]

theorem vec3_muls_zeroV (s : K) : vec3_muls s (0 : Vec3 K) = 0 := by
  rw [← vec3_zero_eq_zero, vec3_muls_zero]

theorem vec3_sub_zeroV : vec3_sub (0 : Vec3 K) 0 = 0 := by
  rw [← vec3_zero_eq_zero, vec3_sub_zero_zero]

theorem vec3_muls_mul (s t : K) (p : Vec3 K) :
    vec3_muls (s * t) p = vec3_muls s (vec3_muls t p) := by
  ext <;> simp [vec3_muls] <;> ring

/-- External math-library interface: the libm functions used by the source.
cos, sin, sqrt are from math.h; pi is the M_PI constant; rankPow models
pow(., CONT_SCALING_POWER) (the exponent lives in config.h, which is not
under src/, so the whole one-argument power map is kept abstract). -/
structure Ext (K : Type) where
  cos : K → K
  sin : K → K
  sqrt : K → K
  pi : K
  rankPow : K → K

/-- The inputs of FastIncommSum, with the same names as the C parameters.
Flat C arrays are modelled as functions from the index. -/
structure Inputs (K : Type) where
  in_positions : ℕ → K
  in_fc : ℕ → K
  in_K : ℕ → K
  in_phi : ℕ → K
  in_muonpos : ℕ → K
  in_supercell : ℕ → ℕ
  in_cell : ℕ → K
  radius : K
  nnn_for_cont : ℕ
  cont_radius : K
  in_natoms : ℕ
  in_nangles : ℕ
  EPS : K

variable (ext : Ext K) (inp : Inputs K)

/-- scx = in_supercell[0]. -/
def scx : ℕ := inp.in_supercell 0

/-- scy = in_supercell[1]. -/
def scy : ℕ := inp.in_supercell 1

/-- scz = in_supercell[2]. -/
def scz : ℕ := inp.in_supercell 2

/-- The lattice cell matrix built from in_cell (rows a, b, c),
before the supercell scaling (lines 139-147 of the source). -/
def cellMat : Mat3 K :=
  ⟨⟨inp.in_cell 0, inp.in_cell 1, inp.in_cell 2⟩,
   ⟨inp.in_cell 3, inp.in_cell 4, inp.in_cell 5⟩,
   ⟨inp.in_cell 6, inp.in_cell 7, inp.in_cell 8⟩⟩

/-- inv_sc_lat = mat3_inv(sc_lat), computed from the unscaled cell
(line 149 of the source, before the supercell scaling of line 193). -/
def inv_sc_lat : Mat3 K := mat3_inv (cellMat inp)

/-- sc_lat after the supercell scaling:
mat3_mul(mat3_diag(scx, scy, scz), sc_lat) (line 193). -/
def sc_lat : Mat3 K :=
  mat3_mul (mat3_diag (scx inp : K) (scy inp : K) (scz inp : K)) (cellMat inp)

/-- The propagation vector K = (in_K[0], in_K[1], in_K[2]). -/
def Kvec : Vec3 K := ⟨inp.in_K 0, inp.in_K 1, inp.in_K 2⟩

/-- The muon position in cartesian coordinates (lines 199-209):
fractional position shifted by the integer supercell half-sizes,
divided componentwise by the supercell sizes, then sent through sc_lat.
scx/2 is C unsigned division, i.e. Nat division. -/
def muonpos : Vec3 K :=
  mat3_vmul
    ⟨(inp.in_muonpos 0 + ((scx inp / 2 : ℕ) : K)) / (scx inp : K),
     (inp.in_muonpos 1 + ((scy inp / 2 : ℕ) : K)) / (scy inp : K),
     (inp.in_muonpos 2 + ((scz inp / 2 : ℕ) : K)) / (scz inp : K)⟩
    (sc_lat inp)

/-- The reference atom position in cartesian coordinates (lines 221-230). -/
def refatmpos (a : ℕ) : Vec3 K :=
  mat3_vmul
    ⟨(inp.in_positions (3 * a) + ((scx inp / 2 : ℕ) : K)) / (scx inp : K),
     (inp.in_positions (3 * a + 1) + ((scy inp / 2 : ℕ) : K)) / (scy inp : K),
     (inp.in_positions (3 * a + 2) + ((scz inp / 2 : ℕ) : K)) / (scz inp : K)⟩
    (sc_lat inp)

/-- The real part of the Fourier coefficient of atom a, standard layout:
offsets 6a, 6a+2, 6a+4 (lines 246-248, the non-_ALTERNATE_FC_INPUT branch). -/
def reFC (a : ℕ) : Vec3 K :=
  ⟨inp.in_fc (6 * a), inp.in_fc (6 * a + 2), inp.in_fc (6 * a + 4)⟩

/-- The imaginary part of the Fourier coefficient of atom a, standard layout:
offsets 6a+1, 6a+3, 6a+5 (lines 261-263). -/
def imFC (a : ℕ) : Vec3 K :=
  ⟨inp.in_fc (6 * a + 1), inp.in_fc (6 * a + 3), inp.in_fc (6 * a + 5)⟩

/-- stagmom[a] = vec3_norm of the real Fourier part (line 250). -/
def stagmom (a : ℕ) : K := vec3_norm ext.sqrt (reFC inp a)

/-- Ahelix[a] = (1/stagmom[a]) * Re(FC) (line 251). -/
def Ahelix (a : ℕ) : Vec3 K := vec3_muls (1 / stagmom ext inp a) (reFC inp a)

/-- Bhelix[a] = (1/norm(Im(FC))) * Im(FC) (line 270). -/
def Bhelix (a : ℕ) : Vec3 K :=
  vec3_muls (1 / vec3_norm ext.sqrt (imFC inp a)) (imFC inp a)

/-- The diagnostics the routine can print.  Each constructor records
exactly the data the corresponding printf call interpolates:
the staggered-moment mismatch message names the atom (line 268), the
orthogonality message names the atom and the dot product (line 274), the
phi warning carries no data (line 285), and the contact rank mismatch
message carries the two ranks (line 516). -/
inductive Diag (K : Type) where
  | stagMismatch (atom : ℕ)
  | nonOrth (atom : ℕ) (magnitude : K)
  | phiWarn
  | rankOdd (r1 r2 : K)
  deriving DecidableEq, Repr

/-- The diagnostics emitted by the helix decomposition loop
(lines 266-286), in program order. -/
def helixDiags : List (Diag K) :=
  (List.range inp.in_natoms).flatMap fun a =>
    (if inp.EPS < |stagmom ext inp a - vec3_norm ext.sqrt (imFC inp a)| then
      [Diag.stagMismatch a] else [])
    ++ (if inp.EPS < |vec3_dot (Ahelix ext inp a) (Bhelix ext inp a)| then
      [Diag.nonOrth a (vec3_dot (Ahelix ext inp a) (Bhelix ext inp a))] else [])
    ++ (if inp.EPS < |inp.in_phi a| then [Diag.phiWarn] else [])

/-- Modelled from the spec: pile.h/pile.c are not under src/.  The bounded
nearest-set selector of spec section 4.2: a fixed capacity together with the
retained (rank, value) entries, kept in ascending-rank order. -/
structure Pile (K : Type) where
  capacity : ℕ
  entries : List (K × Vec3 K)
  deriving DecidableEq

/-- Modelled from the spec: pile_init constructs an empty selector with the
given fixed capacity. -/
def pile_init (cap : ℕ) : Pile K := ⟨cap, []⟩

/-- Modelled from the spec: insertion into an ascending-rank-ordered list,
placing a new entry after all entries of smaller or equal rank, so that
ties are broken first-seen (the earlier entry stays in front). -/
def insertSorted (e : K × Vec3 K) : List (K × Vec3 K) → List (K × Vec3 K)
  | [] => [e]
  | e0 :: rest => if e.1 < e0.1 then e :: e0 :: rest else e0 :: insertSorted e rest

/-- Modelled from the spec: pile_add_element inserts maintaining ascending
rank order and truncates to the capacity, which at capacity discards the
largest retained rank exactly when the new rank is smaller than it. -/
def pile_add_element (p : Pile K) (rank : K) (v : Vec3 K) : Pile K :=
  ⟨p.capacity, (insertSorted (rank, v) p.entries).take p.capacity⟩

/-- Modelled from the spec: the ranks array exposed by the selector;
positions beyond the retained entries hold the negative sentinel rank. -/
def pile_ranks (p : Pile K) (i : ℕ) : K :=
  if h : i < p.entries.length then (p.entries.get ⟨i, h⟩).1 else -1

/-- Modelled from the spec: the values array exposed by the selector. -/
def pile_elements (p : Pile K) (i : ℕ) : Vec3 K :=
  if h : i < p.entries.length then (p.entries.get ⟨i, h⟩).2 else vec3_zero

/-- The mutable state of the lattice reduction: the four per-atom
accumulator arrays and the two contact piles (lines 90-95 of the source). -/
structure RedState (K : Type) where
  CDip : ℕ → Vec3 K
  SDip : ℕ → Vec3 K
  CLor : ℕ → Vec3 K
  SLor : ℕ → Vec3 K
  CCont : Pile K
  SCont : Pile K

/-- The atom position of replica (i, j, k) in cartesian coordinates
(lines 307-314): fractional position shifted by the replica index, scaled
by the supercell sizes, then sent through the scaled lattice. -/
def atmposAt (i j k a : ℕ) : Vec3 K :=
  mat3_vmul
    ⟨(inp.in_positions (3 * a) + (i : K)) / (scx inp : K),
     (inp.in_positions (3 * a + 1) + (j : K)) / (scy inp : K),
     (inp.in_positions (3 * a + 2) + (k : K)) / (scz inp : K)⟩
    (sc_lat inp)

/-- r = vec3_sub(atmpos, muonpos) (line 319). -/
def dispAt (i j k a : ℕ) : Vec3 K := vec3_sub (atmposAt inp i j k a) (muonpos inp)

/-- n = vec3_norm(r) (line 321). -/
def nAt (i j k a : ℕ) : K := vec3_norm ext.sqrt (dispAt inp i j k a)

/-- u = (1/n) r (line 328). -/
def uAt (i j k a : ℕ) : Vec3 K :=
  vec3_muls (1 / nAt ext inp i j k a) (dispAt inp i j k a)

/-- crysvec = mat3_vmul(vec3_sub(vec3_sub(atmpos, muonpos), refatmpos[a]),
inv_sc_lat) (line 333). -/
def crysvecAt (i j k a : ℕ) : Vec3 K :=
  mat3_vmul (vec3_sub (dispAt inp i j k a) (refatmpos inp a)) (inv_sc_lat inp)

/-- The phase argument 2 pi (K . crysvec + phi[a]) (lines 335-336). -/
def thetaAt (i j k a : ℕ) : K :=
  2 * ext.pi * (vec3_dot (Kvec inp) (crysvecAt inp i j k a) + inp.in_phi a)

/-- One iteration of the lattice-reduction loop body (lines 303-430) for the
replica-atom tuple (i, j, k, a): if the cutoff test n < radius passes, the
dipolar and Lorentz accumulators of atom a receive their contributions and,
when additionally n < cont_radius, the two contact piles receive the
cosine- and sine-weighted candidates; otherwise the state is unchanged. -/
def reductionStep (st : RedState K) (t : ℕ × ℕ × ℕ × ℕ) : RedState K :=
  let i := t.1
  let j := t.2.1
  let k := t.2.2.1
  let a := t.2.2.2
  let n := nAt ext inp i j k a
  if n < inp.radius then
    let u := uAt ext inp i j k a
    let onebrcube := 1 / n ^ 3
    let c := ext.cos (thetaAt ext inp i j k a)
    let s := ext.sin (thetaAt ext inp i j k a)
    { CDip := Function.update st.CDip a (vec3_add (st.CDip a)
        (vec3_add
          (vec3_muls (c * onebrcube)
            (vec3_sub (vec3_muls (3 * vec3_dot (Ahelix ext inp a) u) u) (Ahelix ext inp a)))
          (vec3_muls (s * onebrcube)
            (vec3_sub (vec3_muls (3 * vec3_dot (Bhelix ext inp a) u) u) (Bhelix ext inp a)))))
      SDip := Function.update st.SDip a (vec3_add (st.SDip a)
        (vec3_sub
          (vec3_muls (s * onebrcube)
            (vec3_sub (vec3_muls (3 * vec3_dot (Ahelix ext inp a) u) u) (Ahelix ext inp a)))
          (vec3_muls (c * onebrcube)
            (vec3_sub (vec3_muls (3 * vec3_dot (Bhelix ext inp a) u) u) (Bhelix ext inp a)))))
      CLor := Function.update st.CLor a (vec3_add (st.CLor a)
        (vec3_add (vec3_muls c (Ahelix ext inp a)) (vec3_muls s (Bhelix ext inp a))))
      SLor := Function.update st.SLor a (vec3_add (st.SLor a)
        (vec3_sub (vec3_muls s (Ahelix ext inp a)) (vec3_muls c (Bhelix ext inp a))))
      CCont := if n < inp.cont_radius then
          pile_add_element st.CCont (ext.rankPow n)
            (vec3_add (vec3_muls (stagmom ext inp a * c) (Ahelix ext inp a))
              (vec3_muls (stagmom ext inp a * s) (Bhelix ext inp a)))
        else st.CCont
      SCont := if n < inp.cont_radius then
          pile_add_element st.SCont (ext.rankPow n)
            (vec3_sub (vec3_muls (stagmom ext inp a * s) (Ahelix ext inp a))
              (vec3_muls (stagmom ext inp a * c) (Bhelix ext inp a)))
        else st.SCont }
  else st

/-- The initial state: zero accumulators (lines 119-127) and empty piles of
capacity nnn_for_cont (lines 116-117). -/
def redInit : RedState K :=
  ⟨fun _ => vec3_zero, fun _ => vec3_zero, fun _ => vec3_zero, fun _ => vec3_zero,
   pile_init inp.nnn_for_cont, pile_init inp.nnn_for_cont⟩

/-- The iteration space of the collapsed triple replica loop with the inner
atom loop (lines 296-303), in program order. -/
def tupleList : List (ℕ × ℕ × ℕ × ℕ) :=
  (List.range (scx inp)).flatMap fun i =>
    (List.range (scy inp)).flatMap fun j =>
      (List.range (scz inp)).flatMap fun k =>
        (List.range inp.in_natoms).map fun a => (i, j, k, a)

/-- The state after the whole lattice reduction. -/
def redFinal : RedState K := (tupleList inp).foldl (reductionStep ext inp) (redInit inp)

/-- angle = 2 pi (angn / in_nangles) (lines 450 and 526). -/
def angleAt (angn : ℕ) : K :=
  2 * ext.pi * ((angn : K) / (inp.in_nangles : K))

/-- The dipolar field vector written at angle index angn (lines 453-468):
the atom loop accumulated into BDip starting from zero, then scaled by the
magnetic-moment-to-tesla constant 0.9274009. -/
def out_field_dip (angn : ℕ) : Vec3 K :=
  vec3_muls (9274009 / 10000000)
    ((List.range inp.in_natoms).foldl
      (fun acc a =>
        vec3_add acc
          (vec3_muls (stagmom ext inp a)
            (vec3_sub
              (vec3_muls (ext.cos (angleAt ext inp angn)) ((redFinal ext inp).CDip a))
              (vec3_muls (ext.sin (angleAt ext inp angn)) ((redFinal ext inp).SDip a)))))
      vec3_zero)

/-- The Lorentz field vector written at angle index angn (lines 475-490):
the accumulated BLor scaled by 0.33333333333 * 11.654064 and by the
analytic sphere prefactor 3/(4 pi radius^3). -/
def out_field_lor (angn : ℕ) : Vec3 K :=
  vec3_muls (33333333333 / 100000000000 * (11654064 / 1000000))
    (vec3_muls (3 / (4 * ext.pi * inp.radius ^ 3))
      ((List.range inp.in_natoms).foldl
        (fun acc a =>
          vec3_add acc
            (vec3_muls (stagmom ext inp a)
              (vec3_sub
                (vec3_muls (ext.cos (angleAt ext inp angn)) ((redFinal ext inp).CLor a))
                (vec3_muls (ext.sin (angleAt ext inp angn)) ((redFinal ext inp).SLor a)))))
        vec3_zero))

/-- The running state of the contact drain loop (lines 108-111):
the two accumulated vectors, the weight sum and the moment count. -/
structure ContAcc (K : Type) where
  CBCont : Vec3 K
  SBCont : Vec3 K
  SumOfWeights : K
  NofM : ℕ
  deriving DecidableEq

/-- One step of the contact drain loop (lines 505-518) at pile index i:
if the cosine rank is present (nonnegative) and agrees with the sine rank
within EPS, accumulate both weighted values, the weight and the count;
otherwise (the diagnostic branch) leave the accumulators unchanged. -/
def contactStep (C S : Pile K) (eps : K) (acc : ContAcc K) (i : ℕ) : ContAcc K :=
  if 0 ≤ pile_ranks C i ∧ |pile_ranks C i - pile_ranks S i| < eps then
    ⟨vec3_add acc.CBCont (vec3_muls (1 / pile_ranks C i) (pile_elements C i)),
     vec3_add acc.SBCont (vec3_muls (1 / pile_ranks S i) (pile_elements S i)),
     acc.SumOfWeights + 1 / pile_ranks C i,
     acc.NofM + 1⟩
  else acc

/-- The contact accumulators after draining indices 0, ..., nnn-1. -/
def contactAccum (C S : Pile K) (eps : K) (nnn : ℕ) : ContAcc K :=
  (List.range nnn).foldl (contactStep C S eps) ⟨vec3_zero, vec3_zero, 0, 0⟩

/-- The diagnostics emitted by the contact drain loop: one rank-mismatch
message per index whose guard fails (line 516). -/
def contactDiags (C S : Pile K) (eps : K) (nnn : ℕ) : List (Diag K) :=
  (List.range nnn).flatMap fun i =>
    if 0 ≤ pile_ranks C i ∧ |pile_ranks C i - pile_ranks S i| < eps then []
    else [Diag.rankOdd (pile_ranks C i) (pile_ranks S i)]

/-- The contact field vector written at angle index angn (lines 524-540),
for given pile contents: zero when no moment was counted, otherwise the
weight-normalised combination scaled by the contact constant 7.769376. -/
def contactField (C S : Pile K) (angn : ℕ) : Vec3 K :=
  let acc := contactAccum C S inp.EPS inp.nnn_for_cont
  if 0 < acc.NofM then
    vec3_muls (1 / acc.SumOfWeights * (7769376 / 1000000))
      (vec3_sub (vec3_muls (ext.cos (angleAt ext inp angn)) acc.CBCont)
        (vec3_muls (ext.sin (angleAt ext inp angn)) acc.SBCont))
  else vec3_zero

/-- The contact field output of the whole routine at angle index angn,
draining the two piles produced by the lattice reduction. -/
def out_field_cont (angn : ℕ) : Vec3 K :=
  contactField ext inp (redFinal ext inp).CCont (redFinal ext inp).SCont angn

/-- A concrete rational instantiation of the external math functions, used
by the closed witness and counterexample theorems: constant cosine 1,
constant sine 0, identity square root and rank power, pi = 3. -/
def extQ : Ext ℚ :=
  ⟨fun _ => 1, fun _ => 0, fun t => t, 3, fun t => t⟩

/-- A concrete configuration: one atom at the origin of a 1x1x1 identity
cell, Fourier coefficient with real part (1,0,0) and imaginary part
(0,1,0), zero propagation vector and phases, muon at fractional (-1,0,0),
radius 2, one sampled angle, no contact shell. -/
def inpQ : Inputs ℚ where
  in_positions := fun _ => 0
  in_fc := fun n => if n = 0 then 1 else if n = 3 then 1 else 0
  in_K := fun _ => 0
  in_phi := fun _ => 0
  in_muonpos := fun n => if n = 0 then -1 else 0
  in_supercell := fun _ => 1
  in_cell := fun n => if n = 0 ∨ n = 4 ∨ n = 8 then 1 else 0
  radius := 2
  nnn_for_cont := 0
  cont_radius := 0
  in_natoms := 1
  in_nangles := 1
  EPS := 1 / 1000

/-- The same configuration with the muon exactly on the atom: degenerate
geometry with displacement norm 0. -/
def inpQ0 : Inputs ℚ := { inpQ with in_muonpos := fun _ => 0 }

/-- The same configuration with a Lorentz radius below every atom-image
distance, so every tuple fails the cutoff test. -/
def inpQfar : Inputs ℚ := { inpQ with radius := -1 }

/-- The same configuration with an anomalous Fourier coefficient: real part
(1,0,0) but imaginary part (2,0,0), so the real/imaginary norms mismatch
and the helix basis is far from orthogonal. -/
def inpQ9 : Inputs ℚ :=
  { inpQ with in_fc := fun n => if n = 0 then 1 else if n = 1 then 2 else 0 }

/-- The same configuration with a contact shell of one neighbor. -/
def inpQc : Inputs ℚ := { inpQ with nnn_for_cont := 1 }

/-- A concrete cosine pile with one retained entry of rank 2. -/
def pileCw : Pile ℚ := ⟨1, [(2, ⟨1, 0, 0⟩)]⟩

/-- A concrete sine pile with one retained entry of the same rank 2. -/
def pileSw : Pile ℚ := ⟨1, [(2, ⟨0, 1, 0⟩)]⟩

/-- A concrete cosine pile with one retained entry of rank 1. -/
def pileCm : Pile ℚ := ⟨1, [(1, ⟨1, 0, 0⟩)]⟩

/-- A concrete sine pile whose rank 3 disagrees with the cosine pile's
rank 1 at position 0 by far more than EPS. -/
def pileSm : Pile ℚ := ⟨1, [(3, ⟨1, 0, 0⟩)]⟩

theorem foldl_vec3_add_range (f : ℕ → Vec3 K) (v : Vec3 K) (n : ℕ) :
    (List.range n).foldl (fun acc a => vec3_add acc (f a)) v =
      v + ∑ a ∈ Finset.range n, f a := by
  induction n with
  | zero => simp
  | succ m ih =>
    rw [List.range_succ, List.foldl_append, ih]
    simp only [List.foldl_cons, List.foldl_nil, vec3_add_eq_add,
      Finset.sum_range_succ]
    rw [add_assoc]

theorem foldl_of_fixed {α β : Type} (f : β → α → β) (l : List α) (s : β)
    (h : ∀ s' t, t ∈ l → f s' t = s') : l.foldl f s = s := by
  induction l generalizing s with
  | nil => rfl
  | cons t ts ih =>
    rw [List.foldl_cons, h s t (List.mem_cons_self t ts)]
    exact ih s fun s' u hu => h s' u (List.mem_cons_of_mem _ hu)

/-- The dipolar tensor term of the specification:
D(X) = (1/n^3) (3 (X . u) u - X). -/
def dipTensor (n : K) (u X : Vec3 K) : Vec3 K :=
  vec3_muls (1 / n ^ 3) (vec3_sub (vec3_muls (3 * vec3_dot X u) u) X)

/-- C6: for every atom a, the helix decomposition sets m0[a] to the norm of
the real part of the Fourier coefficient, A[a] to the real part divided by
m0[a], and B[a] to the imaginary part divided by its own norm, reading the
standard layout with real components at offsets 6a, 6a+2, 6a+4 and
imaginary components at offsets 6a+1, 6a+3, 6a+5 of the flat array. -/
theorem C6_helix_layout (ext : Ext K) (inp : Inputs K) (a : ℕ) :
    stagmom ext inp a =
      vec3_norm ext.sqrt
        ⟨inp.in_fc (6 * a), inp.in_fc (6 * a + 2), inp.in_fc (6 * a + 4)⟩
    ∧ Ahelix ext inp a =
      vec3_muls (1 / stagmom ext inp a)
        ⟨inp.in_fc (6 * a), inp.in_fc (6 * a + 2), inp.in_fc (6 * a + 4)⟩
    ∧ Bhelix ext inp a =
      vec3_muls
        (1 / vec3_norm ext.sqrt
          ⟨inp.in_fc (6 * a + 1), inp.in_fc (6 * a + 3), inp.in_fc (6 * a + 5)⟩)
        ⟨inp.in_fc (6 * a + 1), inp.in_fc (6 * a + 3), inp.in_fc (6 * a + 5)⟩ :=
  ⟨rfl, rfl, rfl⟩

/-- C1: for a replica-atom tuple (i, j, k, a) whose displacement norm n
satisfies 0 < n < radius, the lattice reduction adds to the per-atom
accumulators exactly CDip[a] += c D(A) + s D(B), SDip[a] += s D(A) - c D(B)
with D(X) = (1/n^3)(3 (X.u) u - X) and u = r/n, and CLor[a] += c A + s B,
SLor[a] += s A - c B, where c and s are the cosine and sine of the phase
argument 2 pi (K . crysvec + phi[a]) and crysvec is the
inverse-lattice-transformed displacement relative to the atom's reference
position; accumulators of every other atom are unchanged. -/
theorem C1_reduction_accumulator_delta (ext : Ext K) (inp : Inputs K)
    (st : RedState K) (i j k a : ℕ)
    (hn : 0 < nAt ext inp i j k a) (hr : nAt ext inp i j k a < inp.radius) :
    (reductionStep ext inp st (i, j, k, a)).CDip a =
      vec3_add (st.CDip a)
        (vec3_add
          (vec3_muls (ext.cos (thetaAt ext inp i j k a))
            (dipTensor (nAt ext inp i j k a) (uAt ext inp i j k a) (Ahelix ext inp a)))
          (vec3_muls (ext.sin (thetaAt ext inp i j k a))
            (dipTensor (nAt ext inp i j k a) (uAt ext inp i j k a) (Bhelix ext inp a))))
    ∧ (reductionStep ext inp st (i, j, k, a)).SDip a =
      vec3_add (st.SDip a)
        (vec3_sub
          (vec3_muls (ext.sin (thetaAt ext inp i j k a))
            (dipTensor (nAt ext inp i j k a) (uAt ext inp i j k a) (Ahelix ext inp a)))
          (vec3_muls (ext.cos (thetaAt ext inp i j k a))
            (dipTensor (nAt ext inp i j k a) (uAt ext inp i j k a) (Bhelix ext inp a))))
    ∧ (reductionStep ext inp st (i, j, k, a)).CLor a =
      vec3_add (st.CLor a)
        (vec3_add (vec3_muls (ext.cos (thetaAt ext inp i j k a)) (Ahelix ext inp a))
          (vec3_muls (ext.sin (thetaAt ext inp i j k a)) (Bhelix ext inp a)))
    ∧ (reductionStep ext inp st (i, j, k, a)).SLor a =
      vec3_add (st.SLor a)
        (vec3_sub (vec3_muls (ext.sin (thetaAt ext inp i j k a)) (Ahelix ext inp a))
          (vec3_muls (ext.cos (thetaAt ext inp i j k a)) (Bhelix ext inp a)))
    ∧ ∀ b, b ≠ a →
        (reductionStep ext inp st (i, j, k, a)).CDip b = st.CDip b
        ∧ (reductionStep ext inp st (i, j, k, a)).SDip b = st.SDip b
        ∧ (reductionStep ext inp st (i, j, k, a)).CLor b = st.CLor b
        ∧ (reductionStep ext inp st (i, j, k, a)).SLor b = st.SLor b := by
  refine ⟨?_, ?_, ?_, ?_, ?_⟩ <;>
    simp only [reductionStep, if_pos hr]
  · rw [Function.update_same]
    simp [dipTensor, ← vec3_muls_mul, mul_comm]
  · rw [Function.update_same]
    simp [dipTensor, ← vec3_muls_mul, mul_comm]
  · rw [Function.update_same]
  · rw [Function.update_same]
  · intro b hb
    refine ⟨?_, ?_, ?_, ?_⟩ <;> rw [Function.update_noteq hb]

theorem C1_reduction_accumulator_delta_witness :
    0 < nAt extQ inpQ 0 0 0 0 ∧ nAt extQ inpQ 0 0 0 0 < inpQ.radius ∧
    (reductionStep extQ inpQ (redInit inpQ) (0, 0, 0, 0)).CLor 0 =
      vec3_add ((redInit inpQ).CLor 0)
        (vec3_add (vec3_muls (extQ.cos (thetaAt extQ inpQ 0 0 0 0)) (Ahelix extQ inpQ 0))
          (vec3_muls (extQ.sin (thetaAt extQ inpQ 0 0 0 0)) (Bhelix extQ inpQ 0))) := by
  have hn : 0 < nAt extQ inpQ 0 0 0 0 := by
    norm_num [nAt, dispAt, atmposAt, muonpos, sc_lat, cellMat, mat3_mul, mat3_diag,
      mat3_vmul, vec3_norm, vec3_dot, vec3_add, vec3_sub, vec3_muls, scx, scy, scz,
      extQ, inpQ]
  have hr : nAt extQ inpQ 0 0 0 0 < inpQ.radius := by
    norm_num [nAt, dispAt, atmposAt, muonpos, sc_lat, cellMat, mat3_mul, mat3_diag,
      mat3_vmul, vec3_norm, vec3_dot, vec3_add, vec3_sub, vec3_muls, scx, scy, scz,
      extQ, inpQ]
  exact ⟨hn, hr,
    (C1_reduction_accumulator_delta extQ inpQ (redInit inpQ) 0 0 0 0 hn hr).2.2.1⟩

/-- C9: if for atom a the real and imaginary Fourier-coefficient norms
differ by more than EPS, the helix loop emits a diagnostic naming atom a;
if |A[a] . B[a]| exceeds EPS it emits a diagnostic naming atom a and the
magnitude of the violation; and in either case the decomposition still
computes m0, A and B from the supplied data by the unguarded formulas
(the diagnostics never alter or abort the computation). -/
theorem C9_helix_diagnostics (ext : Ext K) (inp : Inputs K) (a : ℕ)
    (ha : a < inp.in_natoms) :
    (inp.EPS < |stagmom ext inp a - vec3_norm ext.sqrt (imFC inp a)| →
      Diag.stagMismatch a ∈ helixDiags ext inp)
    ∧ (inp.EPS < |vec3_dot (Ahelix ext inp a) (Bhelix ext inp a)| →
      Diag.nonOrth a (vec3_dot (Ahelix ext inp a) (Bhelix ext inp a)) ∈
        helixDiags ext inp)
    ∧ stagmom ext inp a = vec3_norm ext.sqrt (reFC inp a)
    ∧ Ahelix ext inp a = vec3_muls (1 / stagmom ext inp a) (reFC inp a)
    ∧ Bhelix ext inp a =
        vec3_muls (1 / vec3_norm ext.sqrt (imFC inp a)) (imFC inp a) := by
  refine ⟨?_, ?_, rfl, rfl, rfl⟩
  · intro h
    exact List.mem_flatMap.mpr
      ⟨a, List.mem_range.mpr ha, by simp [List.mem_append, h]⟩
  · intro h
    exact List.mem_flatMap.mpr
      ⟨a, List.mem_range.mpr ha, by simp [List.mem_append, h]⟩

theorem C9_helix_diagnostics_witness :
    Diag.stagMismatch 0 ∈ helixDiags extQ inpQ9 ∧
    Diag.nonOrth 0 (vec3_dot (Ahelix extQ inpQ9 0) (Bhelix extQ inpQ9 0)) ∈
      helixDiags extQ inpQ9 := by
  have h := C9_helix_diagnostics extQ inpQ9 0 (by norm_num [inpQ9, inpQ])
  refine ⟨h.1 ?_, h.2.1 ?_⟩
  · norm_num [stagmom, vec3_norm, vec3_dot, reFC, imFC, extQ, inpQ9, inpQ]
  · have h2 : vec3_dot (Ahelix extQ inpQ9 0) (Bhelix extQ inpQ9 0) = 1 / 2 := by
      norm_num [Ahelix, Bhelix, stagmom, vec3_norm, vec3_dot, vec3_muls, reFC, imFC,
        extQ, inpQ9, inpQ]
    rw [h2, abs_of_pos (by norm_num : (0 : ℚ) < 1 / 2)]
    norm_num [inpQ9, inpQ]

theorem foldl_vec3_add_range_zero (f : ℕ → Vec3 K) (n : ℕ) :
    (List.range n).foldl (fun acc a => vec3_add acc (f a)) vec3_zero =
      ∑ a ∈ Finset.range n, f a := by
  rw [foldl_vec3_add_range, vec3_zero_eq_zero, zero_add]

theorem pile_ranks_init (cap : ℕ) (i : ℕ) : pile_ranks (pile_init cap : Pile K) i = -1 := by
  simp [pile_ranks, pile_init]

theorem contactStep_init_fixed (c1 c2 : ℕ) (eps : K) (acc : ContAcc K) (i : ℕ) :
    contactStep (pile_init c1) (pile_init c2) eps acc i = acc := by
  simp only [contactStep]
  rw [if_neg]
  rintro ⟨h0, -⟩
  rw [pile_ranks_init] at h0
  exact absurd h0 (by norm_num)

theorem contactAccum_init (c1 c2 : ℕ) (eps : K) (nnn : ℕ) :
    contactAccum (pile_init c1 : Pile K) (pile_init c2) eps nnn =
      ⟨vec3_zero, vec3_zero, 0, 0⟩ :=
  foldl_of_fixed _ _ _ fun acc i _ => contactStep_init_fixed c1 c2 eps acc i

/-- C5: if every replica-atom tuple fails the cutoff test n < radius (the
Lorentz radius is below the distance from the probe to every atom image),
then the dipolar, Lorentz and contact outputs are exactly zero at every
angle index. -/
theorem C5_zero_field_baseline (ext : Ext K) (inp : Inputs K)
    (h : ∀ t ∈ tupleList inp, ¬ nAt ext inp t.1 t.2.1 t.2.2.1 t.2.2.2 < inp.radius) :
    ∀ angn : ℕ,
      out_field_dip ext inp angn = vec3_zero
      ∧ out_field_lor ext inp angn = vec3_zero
      ∧ out_field_cont ext inp angn = vec3_zero := by
  have hred : redFinal ext inp = redInit inp := by
    unfold redFinal
    refine foldl_of_fixed _ _ _ fun s t ht => ?_
    simp only [reductionStep]
    rw [if_neg (h t ht)]
  intro angn
  refine ⟨?_, ?_, ?_⟩
  · simp only [out_field_dip, hred, foldl_vec3_add_range_zero]
    rw [Finset.sum_eq_zero fun a _ => by
      simp [redInit, vec3_muls_zeroV, vec3_sub_zeroV, vec3_zero_eq_zero]]
    rw [← vec3_zero_eq_zero, vec3_muls_zero]
  · simp only [out_field_lor, hred, foldl_vec3_add_range_zero]
    rw [Finset.sum_eq_zero fun a _ => by
      simp [redInit, vec3_muls_zeroV, vec3_sub_zeroV, vec3_zero_eq_zero]]
    rw [← vec3_zero_eq_zero, vec3_muls_zero, vec3_muls_zero]
  · simp only [out_field_cont, hred, redInit, contactField, contactAccum_init]
    norm_num

theorem C5_zero_field_baseline_witness :
    (∀ t ∈ tupleList inpQfar,
      ¬ nAt extQ inpQfar t.1 t.2.1 t.2.2.1 t.2.2.2 < inpQfar.radius)
    ∧ out_field_dip extQ inpQfar 0 = vec3_zero
    ∧ out_field_lor extQ inpQfar 0 = vec3_zero
    ∧ out_field_cont extQ inpQfar 0 = vec3_zero := by
  have h : ∀ t ∈ tupleList inpQfar,
      ¬ nAt extQ inpQfar t.1 t.2.1 t.2.2.1 t.2.2.2 < inpQfar.radius := by
    intro t ht
    have ht' : t = (0, 0, 0, 0) := by
      revert ht
      norm_num [tupleList, scx, scy, scz, List.range_succ, inpQfar, inpQ]
    subst ht'
    norm_num [nAt, dispAt, atmposAt, muonpos, sc_lat, cellMat, mat3_mul, mat3_diag,
      mat3_vmul, vec3_norm, vec3_dot, vec3_add, vec3_sub, vec3_muls, scx, scy, scz,
      extQ, inpQfar, inpQ]
  exact ⟨h, C5_zero_field_baseline extQ inpQfar h 0⟩

/-- C2 (amended): for every angle index n with angle = 2 pi n / in_nangles,
the dipolar output vector equals
0.9274009 sum_a m0[a] (cos(angle) CDip[a] - sin(angle) SDip[a]) and the
Lorentz output vector equals
(0.33333333333 * 11.654064) (3/(4 pi radius^3))
sum_a m0[a] (cos(angle) CLor[a] - sin(angle) SLor[a]); the claim's Lorentz
prefactor 0.33333333 is amended to the source literal 0.33333333333. -/
theorem C2_angle_sweep_formulas (ext : Ext K) (inp : Inputs K) (angn : ℕ) :
    out_field_dip ext inp angn =
      vec3_muls (9274009 / 10000000)
        (∑ a ∈ Finset.range inp.in_natoms,
          vec3_muls (stagmom ext inp a)
            (vec3_sub
              (vec3_muls (ext.cos (angleAt ext inp angn)) ((redFinal ext inp).CDip a))
              (vec3_muls (ext.sin (angleAt ext inp angn)) ((redFinal ext inp).SDip a))))
    ∧ out_field_lor ext inp angn =
      vec3_muls (33333333333 / 100000000000 * (11654064 / 1000000))
        (vec3_muls (3 / (4 * ext.pi * inp.radius ^ 3))
          (∑ a ∈ Finset.range inp.in_natoms,
            vec3_muls (stagmom ext inp a)
              (vec3_sub
                (vec3_muls (ext.cos (angleAt ext inp angn)) ((redFinal ext inp).CLor a))
                (vec3_muls (ext.sin (angleAt ext inp angn)) ((redFinal ext inp).SLor a))))) := by
  constructor
  · simp only [out_field_dip, foldl_vec3_add_range_zero]
  · simp only [out_field_lor, foldl_vec3_add_range_zero]

/-- C2 (counterexample): at a concrete one-atom configuration the Lorentz
output differs from the claim's formula taken with the literal constant
0.33333333; the source multiplies by 0.33333333333 instead. -/
theorem C2_lorentz_constant_counterexample :
    out_field_lor extQ inpQ 0 ≠
      vec3_muls (33333333 / 100000000 * (11654064 / 1000000))
        (vec3_muls (3 / (4 * extQ.pi * inpQ.radius ^ 3))
          (∑ a ∈ Finset.range inpQ.in_natoms,
            vec3_muls (stagmom extQ inpQ a)
              (vec3_sub
                (vec3_muls (extQ.cos (angleAt extQ inpQ 0)) ((redFinal extQ inpQ).CLor a))
                (vec3_muls (extQ.sin (angleAt extQ inpQ 0)) ((redFinal extQ inpQ).SLor a))))) := by
  intro h
  have hx := congrArg Vec3.x h
  norm_num [out_field_lor, redFinal, tupleList, redInit, reductionStep, nAt, dispAt,
    atmposAt, muonpos, refatmpos, sc_lat, cellMat, inv_sc_lat, mat3_inv, mat3_det,
    mat3_mul, mat3_diag, mat3_vmul, vec3_norm, vec3_dot, vec3_add, vec3_sub,
    vec3_muls, vec3_zero, scx, scy, scz, uAt, thetaAt, crysvecAt, Kvec, Ahelix,
    Bhelix, stagmom, reFC, imFC, List.range_succ, Function.update_same,
    Finset.sum_range_one, angleAt, extQ, inpQ] at hx

/-- The set of drained pile indices that pass the contact guard: rank
present (nonnegative) in the cosine pile and agreeing with the sine pile
rank within eps. -/
def contactSet (C S : Pile K) (eps : K) (nnn : ℕ) : Finset ℕ :=
  (Finset.range nnn).filter
    fun i => 0 ≤ pile_ranks C i ∧ |pile_ranks C i - pile_ranks S i| < eps

theorem contactAccum_succ (C S : Pile K) (eps : K) (n : ℕ) :
    contactAccum C S eps (n + 1) =
      contactStep C S eps (contactAccum C S eps n) n := by
  unfold contactAccum
  rw [List.range_succ, List.foldl_append]
  rfl

theorem contactAccum_eq_sums (C S : Pile K) (eps : K) (nnn : ℕ) :
    contactAccum C S eps nnn =
      ⟨∑ i ∈ contactSet C S eps nnn, vec3_muls (1 / pile_ranks C i) (pile_elements C i),
       ∑ i ∈ contactSet C S eps nnn, vec3_muls (1 / pile_ranks S i) (pile_elements S i),
       ∑ i ∈ contactSet C S eps nnn, 1 / pile_ranks C i,
       (contactSet C S eps nnn).card⟩ := by
  induction nnn with
  | zero =>
    simp [contactAccum, contactSet, vec3_zero_eq_zero]
  | succ n ih =>
    have hnot : n ∉ contactSet C S eps n := by
      intro hmem
      exact absurd (Finset.mem_range.mp (Finset.mem_of_mem_filter n hmem))
        (lt_irrefl n)
    rw [contactAccum_succ, ih]
    by_cases hc : 0 ≤ pile_ranks C n ∧ |pile_ranks C n - pile_ranks S n| < eps
    · have hset : contactSet C S eps (n + 1) = insert n (contactSet C S eps n) := by
        unfold contactSet
        rw [Finset.range_succ, Finset.filter_insert, if_pos hc]
      simp only [contactStep, if_pos hc, hset, Finset.sum_insert hnot,
        Finset.card_insert_of_not_mem hnot, ContAcc.mk.injEq]
      simp [vec3_add_eq_add, add_comm]
    · have hset : contactSet C S eps (n + 1) = contactSet C S eps n := by
        unfold contactSet
        rw [Finset.range_succ, Finset.filter_insert, if_neg hc]
      simp only [contactStep, if_neg hc, hset]

/-- C3: the contact pass accumulates, over exactly the retained indices
whose cosine rank is present and agrees with the sine rank within EPS,
CBCont += value_cos[i]/rank[i], SBCont += value_sin[i]/rank[i], the weight
sum += 1/rank[i] and the count += 1 (each value divided by its own pile's
rank, the weight taken from the cosine pile); if the count is zero the
contact output is zero at every angle, and otherwise it equals
(1/weight_sum) 7.769376 (cos(angle) CBCont - sin(angle) SBCont). -/
theorem C3_contact_pass (ext : Ext K) (inp : Inputs K) (C S : Pile K) :
    (contactAccum C S inp.EPS inp.nnn_for_cont).CBCont =
      (∑ i ∈ contactSet C S inp.EPS inp.nnn_for_cont,
        vec3_muls (1 / pile_ranks C i) (pile_elements C i))
    ∧ (contactAccum C S inp.EPS inp.nnn_for_cont).SBCont =
      (∑ i ∈ contactSet C S inp.EPS inp.nnn_for_cont,
        vec3_muls (1 / pile_ranks S i) (pile_elements S i))
    ∧ (contactAccum C S inp.EPS inp.nnn_for_cont).SumOfWeights =
      (∑ i ∈ contactSet C S inp.EPS inp.nnn_for_cont, 1 / pile_ranks C i)
    ∧ (contactAccum C S inp.EPS inp.nnn_for_cont).NofM =
      (contactSet C S inp.EPS inp.nnn_for_cont).card
    ∧ ((contactAccum C S inp.EPS inp.nnn_for_cont).NofM = 0 →
        ∀ angn : ℕ, contactField ext inp C S angn = vec3_zero)
    ∧ (0 < (contactAccum C S inp.EPS inp.nnn_for_cont).NofM →
        ∀ angn : ℕ, contactField ext inp C S angn =
          vec3_muls
            (1 / (contactAccum C S inp.EPS inp.nnn_for_cont).SumOfWeights *
              (7769376 / 1000000))
            (vec3_sub
              (vec3_muls (ext.cos (angleAt ext inp angn))
                (contactAccum C S inp.EPS inp.nnn_for_cont).CBCont)
              (vec3_muls (ext.sin (angleAt ext inp angn))
                (contactAccum C S inp.EPS inp.nnn_for_cont).SBCont))) := by
  have hsums := contactAccum_eq_sums C S inp.EPS inp.nnn_for_cont
  refine ⟨by rw [hsums], by rw [hsums], by rw [hsums], by rw [hsums], ?_, ?_⟩
  · intro h0 angn
    simp only [contactField]
    rw [if_neg (by rw [h0]; exact lt_irrefl 0)]
  · intro hpos angn
    simp only [contactField]
    rw [if_pos hpos]

theorem C3_contact_pass_witness :
    contactField extQ inpQc pileCw pileSw 0 =
      vec3_muls
        (1 / (contactAccum pileCw pileSw inpQc.EPS inpQc.nnn_for_cont).SumOfWeights *
          (7769376 / 1000000))
        (vec3_sub
          (vec3_muls (extQ.cos (angleAt extQ inpQc 0))
            (contactAccum pileCw pileSw inpQc.EPS inpQc.nnn_for_cont).CBCont)
          (vec3_muls (extQ.sin (angleAt extQ inpQc 0))
            (contactAccum pileCw pileSw inpQc.EPS inpQc.nnn_for_cont).SBCont)) := by
  refine (C3_contact_pass extQ inpQc pileCw pileSw).2.2.2.2.2 ?_ 0
  norm_num [contactAccum, contactStep, pile_ranks, pileCw, pileSw, inpQc, inpQ,
    List.range_succ]

/-- C7 (counterexample): at a concrete configuration whose probe coincides
with an atom image (displacement norm 0) and whose Lorentz radius is
positive, the reduction step does proceed: the cutoff test passes and the
Lorentz accumulator of the atom changes, refuting the claim that the
computation treats degenerate geometry as fatal and does not proceed (the
routine also has no error channel at all: its only outputs are the three
field arrays). -/
theorem C7_degenerate_geometry_counterexample :
    nAt extQ inpQ0 0 0 0 0 = 0
    ∧ 0 < inpQ0.radius
    ∧ (reductionStep extQ inpQ0 (redInit inpQ0) (0, 0, 0, 0)).CLor 0 ≠
        (redInit inpQ0).CLor 0 := by
  refine ⟨?_, ?_, ?_⟩
  · norm_num [nAt, dispAt, atmposAt, muonpos, sc_lat, cellMat, mat3_mul, mat3_diag,
      mat3_vmul, vec3_norm, vec3_dot, vec3_add, vec3_sub, vec3_muls, scx, scy, scz,
      extQ, inpQ0, inpQ]
  · norm_num [inpQ0, inpQ]
  · intro h
    have hx := congrArg Vec3.x h
    norm_num [reductionStep, redInit, nAt, dispAt, atmposAt, muonpos, refatmpos,
      sc_lat, cellMat, inv_sc_lat, mat3_inv, mat3_det, mat3_mul, mat3_diag,
      mat3_vmul, vec3_norm, vec3_dot, vec3_add, vec3_sub, vec3_muls, vec3_zero,
      scx, scy, scz, uAt, thetaAt, crysvecAt, Kvec, Ahelix, Bhelix, stagmom, reFC,
      imFC, Function.update_same, extQ, inpQ0, inpQ] at hx

/-- C7 (amended): the code does not guard degenerate geometry.  When the
displacement norm is exactly 0 and the Lorentz radius is positive, the
cutoff test n < radius passes, the 1/n and 1/n^3 divisions are executed
unguarded (in IEEE arithmetic they produce non-finite dipolar terms; in
this exact-field embedding x/0 is the junk value 0), the accumulators are
updated — shown here for the Lorentz accumulator, whose contribution does
not involve 1/n — and no error is signalled: the interface has no error
channel, so non-degenerate geometry is an unstated caller precondition. -/
theorem C7_degenerate_geometry_unguarded (ext : Ext K) (inp : Inputs K)
    (st : RedState K) (i j k a : ℕ)
    (hn : nAt ext inp i j k a = 0) (hr : 0 < inp.radius) :
    (reductionStep ext inp st (i, j, k, a)).CLor a =
      vec3_add (st.CLor a)
        (vec3_add (vec3_muls (ext.cos (thetaAt ext inp i j k a)) (Ahelix ext inp a))
          (vec3_muls (ext.sin (thetaAt ext inp i j k a)) (Bhelix ext inp a))) := by
  have hcond : nAt ext inp i j k a < inp.radius := by rw [hn]; exact hr
  simp only [reductionStep, if_pos hcond]
  rw [Function.update_same]

theorem C7_degenerate_geometry_unguarded_witness :
    nAt extQ inpQ0 0 0 0 0 = 0 ∧ 0 < inpQ0.radius ∧
    (reductionStep extQ inpQ0 (redInit inpQ0) (0, 0, 0, 0)).CLor 0 =
      vec3_add ((redInit inpQ0).CLor 0)
        (vec3_add (vec3_muls (extQ.cos (thetaAt extQ inpQ0 0 0 0 0)) (Ahelix extQ inpQ0 0))
          (vec3_muls (extQ.sin (thetaAt extQ inpQ0 0 0 0 0)) (Bhelix extQ inpQ0 0))) := by
  have hn : nAt extQ inpQ0 0 0 0 0 = 0 := by
    norm_num [nAt, dispAt, atmposAt, muonpos, sc_lat, cellMat, mat3_mul, mat3_diag,
      mat3_vmul, vec3_norm, vec3_dot, vec3_add, vec3_sub, vec3_muls, scx, scy, scz,
      extQ, inpQ0, inpQ]
  have hr : 0 < inpQ0.radius := by norm_num [inpQ0, inpQ]
  exact ⟨hn, hr,
    C7_degenerate_geometry_unguarded extQ inpQ0 (redInit inpQ0) 0 0 0 0 hn hr⟩

/-- C8 (counterexample): with a cosine pile of rank 1 and a sine pile of
rank 3 at the same retained index 0 (a mismatch far beyond EPS = 1/1000),
the contact pass leaves the whole accumulation untouched — zero vectors,
zero weight and zero count — so the mismatching neighbor's contribution is
dropped, refuting the claim that it is still consumed into the contact
accumulation. -/
theorem C8_mismatch_consumed_counterexample :
    0 ≤ pile_ranks pileCm 0
    ∧ ¬ |pile_ranks pileCm 0 - pile_ranks pileSm 0| < inpQc.EPS
    ∧ contactAccum pileCm pileSm inpQc.EPS inpQc.nnn_for_cont =
        ⟨vec3_zero, vec3_zero, 0, 0⟩ := by
  refine ⟨?_, ?_, ?_⟩ <;>
    norm_num [contactAccum, contactStep, pile_ranks, pile_elements, pileCm, pileSm,
      inpQc, inpQ, List.range_succ]

/-- C8 (amended): when the cosine and sine piles disagree in rank at the
same retained index beyond EPS, the contact pass reports a diagnostic
identifying the mismatch (it prints both ranks), and that neighbor's
contribution is dropped from the contact accumulation — the accumulators,
the weight sum and the count are unchanged at that index. -/
theorem C8_rank_mismatch_dropped (inp : Inputs K) (C S : Pile K) (i : ℕ)
    (hi : i < inp.nnn_for_cont)
    (hpresent : 0 ≤ pile_ranks C i)
    (hmis : ¬ |pile_ranks C i - pile_ranks S i| < inp.EPS) :
    Diag.rankOdd (pile_ranks C i) (pile_ranks S i) ∈
      contactDiags C S inp.EPS inp.nnn_for_cont
    ∧ ∀ acc, contactStep C S inp.EPS acc i = acc := by
  constructor
  · refine List.mem_flatMap.mpr ⟨i, List.mem_range.mpr hi, ?_⟩
    rw [if_neg fun hc => hmis hc.2]
    exact List.mem_singleton.mpr rfl
  · intro acc
    simp only [contactStep]
    rw [if_neg fun hc => hmis hc.2]

theorem C8_rank_mismatch_dropped_witness :
    Diag.rankOdd (pile_ranks pileCm 0) (pile_ranks pileSm 0) ∈
      contactDiags pileCm pileSm inpQc.EPS inpQc.nnn_for_cont
    ∧ contactStep pileCm pileSm inpQc.EPS ⟨vec3_zero, vec3_zero, 0, 0⟩ 0 =
        ⟨vec3_zero, vec3_zero, 0, 0⟩ := by
  have h := C8_rank_mismatch_dropped inpQc pileCm pileSm 0
    (by norm_num [inpQc, inpQ])
    (by norm_num [pile_ranks, pileCm])
    (by norm_num [pile_ranks, pileCm, pileSm, inpQc, inpQ])
  exact ⟨h.1, h.2 _⟩

theorem perm_insertSorted (e : K × Vec3 K) (l : List (K × Vec3 K)) :
    (insertSorted e l).Perm (e :: l) := by
  induction l with
  | nil => simp [insertSorted]
  | cons e0 rest ih =>
    by_cases h : e.1 < e0.1
    · simp [insertSorted, h]
    · simp only [insertSorted, if_neg h]
      exact (ih.cons e0).trans (List.Perm.swap e e0 rest)

theorem sorted_insertSorted (e : K × Vec3 K) (l : List (K × Vec3 K))
    (h : List.Sorted (fun p q : K × Vec3 K => p.1 ≤ q.1) l) :
    List.Sorted (fun p q : K × Vec3 K => p.1 ≤ q.1) (insertSorted e l) := by
  induction l with
  | nil => simp [insertSorted]
  | cons e0 rest ih =>
    rw [List.sorted_cons] at h
    by_cases hlt : e.1 < e0.1
    · simp only [insertSorted, if_pos hlt, List.sorted_cons]
      refine ⟨?_, h⟩
      intro q hq
      rcases List.mem_cons.mp hq with rfl | hq'
      · exact le_of_lt hlt
      · exact (le_of_lt hlt).trans (h.1 q hq')
    · simp only [insertSorted, if_neg hlt, List.sorted_cons]
      refine ⟨?_, ih h.2⟩
      intro q hq
      have hq' : q ∈ e :: rest := (perm_insertSorted e rest).mem_iff.mp hq
      rcases List.mem_cons.mp hq' with rfl | hq''
      · exact not_lt.mp hlt
      · exact h.1 q hq''

theorem take_cons_take {α : Type} (c : ℕ) (x : α) (t : List α) :
    (x :: t.take c).take c = (x :: t).take c := by
  cases c with
  | zero => rfl
  | succ c' =>
    simp only [List.take_succ_cons, List.take_take]
    rw [min_eq_left (Nat.le_succ c')]

theorem take_insertSorted (e : K × Vec3 K) (l : List (K × Vec3 K)) (cap : ℕ) :
    (insertSorted e l).take cap = (insertSorted e (l.take cap)).take cap := by
  induction l generalizing cap with
  | nil => simp [List.take_nil]
  | cons e0 rest ih =>
    cases cap with
    | zero => simp
    | succ c =>
      by_cases hlt : e.1 < e0.1
      · simp only [insertSorted, List.take_succ_cons, if_pos hlt]
        rw [take_cons_take]
      · simp only [insertSorted, List.take_succ_cons, if_neg hlt]
        rw [ih c]

/-- The stable insertion sort of the candidate stream: equal-rank entries
keep their arrival order, which is the "ties broken first-seen" retention
policy of the selector. -/
def insSort (l : List (K × Vec3 K)) : List (K × Vec3 K) :=
  l.foldl (fun s e => insertSorted e s) []

/-- The pile produced by a whole stream of insert calls. -/
def pileFromList (cap : ℕ) (l : List (K × Vec3 K)) : Pile K :=
  l.foldl (fun p e => pile_add_element p e.1 e.2) (pile_init cap)

theorem foldl_insertSorted_perm (l : List (K × Vec3 K)) :
    ∀ s : List (K × Vec3 K),
      (l.foldl (fun s' e => insertSorted e s') s).Perm (s ++ l) := by
  induction l with
  | nil => intro s; simp
  | cons e t ih =>
    intro s
    rw [List.foldl_cons]
    refine (ih (insertSorted e s)).trans ?_
    refine (((perm_insertSorted e s).append_right t).trans ?_)
    exact List.perm_middle.symm

theorem foldl_insertSorted_sorted (l : List (K × Vec3 K)) :
    ∀ s : List (K × Vec3 K),
      List.Sorted (fun p q : K × Vec3 K => p.1 ≤ q.1) s →
      List.Sorted (fun p q : K × Vec3 K => p.1 ≤ q.1)
        (l.foldl (fun s' e => insertSorted e s') s) := by
  induction l with
  | nil => intro s hs; exact hs
  | cons e t ih =>
    intro s hs
    rw [List.foldl_cons]
    exact ih (insertSorted e s) (sorted_insertSorted e s hs)

theorem insSort_perm (l : List (K × Vec3 K)) : (insSort l).Perm l := by
  simpa using foldl_insertSorted_perm l []

theorem insSort_sorted (l : List (K × Vec3 K)) :
    List.Sorted (fun p q : K × Vec3 K => p.1 ≤ q.1) (insSort l) :=
  foldl_insertSorted_sorted l [] (List.sorted_nil)

theorem pileFold_entries (cap : ℕ) (l : List (K × Vec3 K)) :
    ∀ s : List (K × Vec3 K),
      (l.foldl (fun p e => pile_add_element p e.1 e.2) ⟨cap, s.take cap⟩).entries =
        (l.foldl (fun s' e => insertSorted e s') s).take cap := by
  induction l with
  | nil => intro s; rfl
  | cons e t ih =>
    intro s
    rw [List.foldl_cons, List.foldl_cons]
    have hstep : pile_add_element (⟨cap, s.take cap⟩ : Pile K) e.1 e.2 =
        ⟨cap, (insertSorted e s).take cap⟩ := by
      simp only [pile_add_element, Prod.mk.eta]
      rw [← take_insertSorted]
    rw [hstep]
    exact ih (insertSorted e s)

theorem pileFromList_entries (cap : ℕ) (l : List (K × Vec3 K)) :
    (pileFromList cap l).entries = (insSort l).take cap := by
  have h := pileFold_entries cap l []
  simpa [pileFromList, pile_init, insSort, List.take_nil] using h

/-- C4 (spec-modelled Pile): for any stream of insert calls into a pile of
capacity cap, (i) the retained entries are the capacity-truncation of the
stable insertion sort of the stream (ties kept first-seen), (ii) their
number is min(cap, candidates seen), so never more than cap, (iii) they
are exposed in ascending-rank order, (iv) together with the dropped
candidates they are a permutation of the whole stream and every retained
rank is at most every dropped rank — the retained set is the min(cap,
seen) smallest-rank entries, (v) the retained rank sequence is invariant
under permuting the insertion order, and (vi) every position beyond the
retained entries exposes a negative sentinel rank. -/
theorem C4_pile_invariants (cap : ℕ) (l l' : List (K × Vec3 K))
    (hperm : l.Perm l') :
    (pileFromList cap l).entries = (insSort l).take cap
    ∧ (pileFromList cap l).entries.length = min cap l.length
    ∧ List.Sorted (fun p q : K × Vec3 K => p.1 ≤ q.1) (pileFromList cap l).entries
    ∧ ((pileFromList cap l).entries ++ (insSort l).drop cap).Perm l
    ∧ (∀ p ∈ (pileFromList cap l).entries, ∀ q ∈ (insSort l).drop cap, p.1 ≤ q.1)
    ∧ (pileFromList cap l).entries.map Prod.fst =
        (pileFromList cap l').entries.map Prod.fst
    ∧ (∀ i, min cap l.length ≤ i → pile_ranks (pileFromList cap l) i < 0) := by
  have hchar := pileFromList_entries cap l
  have hlen : (pileFromList cap l).entries.length = min cap l.length := by
    rw [hchar, List.length_take, (insSort_perm l).length_eq]
  have hsort : List.Sorted (fun p q : K × Vec3 K => p.1 ≤ q.1)
      (pileFromList cap l).entries := by
    rw [hchar]
    exact (insSort_sorted l).sublist (List.take_sublist cap (insSort l))
  have hsplit : (pileFromList cap l).entries ++ (insSort l).drop cap = insSort l := by
    rw [hchar, List.take_append_drop]
  refine ⟨hchar, hlen, hsort, ?_, ?_, ?_, ?_⟩
  · rw [hsplit]; exact insSort_perm l
  · have hpair := insSort_sorted l
    rw [← hsplit] at hpair
    exact (List.pairwise_append.mp hpair).2.2
  · have hs1 : List.Sorted (fun a b : K => a ≤ b) ((insSort l).map Prod.fst) :=
      List.pairwise_map.mpr (insSort_sorted l)
    have hs2 : List.Sorted (fun a b : K => a ≤ b) ((insSort l').map Prod.fst) :=
      List.pairwise_map.mpr (insSort_sorted l')
    have hp : ((insSort l).map Prod.fst).Perm ((insSort l').map Prod.fst) :=
      ((insSort_perm l).map Prod.fst).trans
        ((hperm.map Prod.fst).trans ((insSort_perm l').map Prod.fst).symm)
    have hmaps := List.eq_of_perm_of_sorted hp hs1 hs2
    rw [hchar, pileFromList_entries cap l', List.map_take, List.map_take, hmaps]
  · intro i hi
    rw [pile_ranks, dif_neg (by rw [hlen]; exact not_lt.mpr hi)]
    norm_num

theorem C4_pile_invariants_witness :
    (pileFromList 1 [((2 : ℚ), (⟨1, 0, 0⟩ : Vec3 ℚ)), (1, ⟨0, 1, 0⟩)]).entries =
      (insSort [((2 : ℚ), (⟨1, 0, 0⟩ : Vec3 ℚ)), (1, ⟨0, 1, 0⟩)]).take 1
    ∧ (pileFromList 1 [((2 : ℚ), (⟨1, 0, 0⟩ : Vec3 ℚ)), (1, ⟨0, 1, 0⟩)]).entries.map
        Prod.fst =
      (pileFromList 1 [((1 : ℚ), (⟨0, 1, 0⟩ : Vec3 ℚ)), (2, ⟨1, 0, 0⟩)]).entries.map
        Prod.fst := by
  have h := C4_pile_invariants 1
    [((2 : ℚ), (⟨1, 0, 0⟩ : Vec3 ℚ)), (1, ⟨0, 1, 0⟩)]
    [((1 : ℚ), (⟨0, 1, 0⟩ : Vec3 ℚ)), (2, ⟨1, 0, 0⟩)]
    (List.Perm.swap _ _ _)
  exact ⟨h.1, h.2.2.2.2.2.1⟩

end MuLFC
